import Mathlib

/-!
# Verification of the `accsum` accurate-summation library

This file embeds the Go package `soniakeys/accsum` (accurate floating-point
summation and dot products following S. Rump et al.) into Lean 4, and settles
a list of claims about it.

The embedding models IEEE-754 binary64 exactly:
* finite values are rationals on the binary64 grid (53-bit precision,
  minimum exponent -1074 for subnormals),
* rounding is round-to-nearest, ties to even, with overflow to infinity at
  the IEEE threshold `2^1024 - 2^970`,
* the value domain `FP` has NaN and signed infinities with Go/IEEE
  comparison semantics (comparisons with NaN are false).

Go slices are modelled as lists; in-place mutation is modelled by returning
the updated list.  Loops with data-dependent exit conditions
(`transform3`) are modelled with an explicit fuel parameter; `none` means
the fuel ran out, and a theorem quantifying over all fuels expresses
non-termination.  Go `panic` is modelled by `Except`/`Option`.
-/

namespace AccSum

/-! ## The binary64 grid over ℚ

All numeric primitives below are written with structural recursion and
kernel-accelerated `Nat` arithmetic, so that concrete executions of the
embedded algorithms can be checked by `decide`. -/

/-! Primitive rational arithmetic, written against the `mkRat` smart
constructor only: unlike `Rat.add`/`Rat.mul`/`Rat.inv` (which are
`@[irreducible]`), these definitions evaluate by plain reduction, which lets
`decide` check concrete runs of the embedded algorithms.  Equations with
the standard operations are proved below. -/

/-- Rational addition. -/
def qadd (a b : ℚ) : ℚ := mkRat (a.num * b.den + b.num * a.den) (a.den * b.den)

/-- Rational negation. -/
def qneg (a : ℚ) : ℚ := mkRat (-a.num) a.den

/-- Rational subtraction. -/
def qsub (a b : ℚ) : ℚ := qadd a (qneg b)

/-- Rational multiplication. -/
def qmul (a b : ℚ) : ℚ := mkRat (a.num * b.num) (a.den * b.den)

/-- Rational division (`0` when `b = 0`, like `Rat.div`). -/
def qdiv (a b : ℚ) : ℚ :=
  mkRat (a.num * b.den * Int.sign b.num) (a.den * b.num.natAbs)

/-- Rational absolute value. -/
def qabs (a : ℚ) : ℚ := if a.num < 0 then qneg a else a

/-- Rational order, decided on cross-multiplied numerators. -/
def qleB (a b : ℚ) : Bool := decide (a.num * b.den ≤ b.num * a.den)

/-- Strict rational order. -/
def qltB (a b : ℚ) : Bool := decide (a.num * b.den < b.num * a.den)

/-- `⌊a⌋` (floor division of numerator by denominator). -/
def qfloor (a : ℚ) : ℤ := a.num.fdiv a.den

/-- `⌈a⌉`. -/
def qceil (a : ℚ) : ℤ := -((-a.num).fdiv a.den)

/-- `2^n` over ℕ by binary exponentiation (first argument is recursion
fuel), keeping evaluation depth logarithmic. -/
def pow2Nat : ℕ → ℕ → ℕ
  | 0, _ => 1
  | f + 1, n =>
    if n = 0 then 1
    else
      (fun h => if n % 2 = 0 then h * h else h * h * 2) (pow2Nat f (n / 2))

/-- `2^e` over ℚ for an integer exponent, kernel-evaluable. -/
def pow2 : ℤ → ℚ
  | .ofNat n => (pow2Nat n n : ℚ)
  | .negSucc n => mkRat 1 (pow2Nat (n + 1) (n + 1))

/-- Bit length worker, 4 bits per recursion step (first argument is
recursion fuel); keeps evaluation depth small. -/
def bitsGo : ℕ → ℕ → ℕ
  | 0, _ => 0
  | f + 1, n =>
    if n < 16 then
      (if n = 0 then 0 else if n < 2 then 1 else if n < 4 then 2
       else if n < 8 then 3 else 4)
    else bitsGo f (n / 16) + 4

/-- Bit length worker processing 64-bit chunks, to keep the recursion depth
logarithmic (the kernel evaluates this on 1024-bit numbers). -/
def bitsBig : ℕ → ℕ → ℕ
  | 0, _ => 0
  | f + 1, n =>
    if n < 18446744073709551616 then bitsGo 16 n
    else bitsBig f (n / 18446744073709551616) + 64

/-- Bit length of a natural number: `0` for `0`, `⌊log₂ n⌋ + 1` otherwise. -/
def bits (n : ℕ) : ℕ := bitsBig n n

/-- `⌊log₂ q⌋` for positive rational `q` (junk value `0` for `q ≤ 0`). -/
def ratLog2 (q : ℚ) : ℤ :=
  if qleB q 0 then 0
  else
    (fun e : ℤ => if qleB (pow2 e) q then e else e - 1)
      ((bits q.num.toNat : ℤ) - (bits q.den : ℤ))

/-- Canonical (grid) exponent of a rational at binary64 precision:
`max (⌊log₂ |q|⌋ - 52) (-1074)`.  A binary64 value with magnitude in
`[2^e, 2^(e+1))` is an integer multiple of `2^(e-52)`; the clamp at `-1074`
is gradual underflow (subnormals). -/
def cexp (q : ℚ) : ℤ := max (ratLog2 (qabs q) - 52) (-1074)

/-- `x` is representable as a binary64 value, ignoring the overflow bound:
`x` is an integer multiple of `2^(cexp x)` (Flocq-style generic format). -/
def Rep (x : ℚ) : Prop := (qmul x (pow2 (-cexp x))).den = 1

instance : DecidablePred Rep := fun x => inferInstanceAs (Decidable (_ = 1))

/-- Round a rational to the nearest integer, ties to even. -/
def rnE (x : ℚ) : ℤ :=
  let n := qfloor x
  let fr := qsub x (n : ℚ)
  if qltB fr (mkRat 1 2) then n
  else if qltB (mkRat 1 2) fr then n + 1
  else if n % 2 = 0 then n else n + 1

/-- Round to nearest binary64 grid value, ties to even (no overflow check). -/
def roundQ (x : ℚ) : ℚ := qmul (rnE (qmul x (pow2 (-cexp x))) : ℚ) (pow2 (cexp x))

/-- A binary64 value: NaN, a signed infinity (`neg = true` for `-∞`), or a
finite grid value. -/
inductive FP where
  | nan : FP
  | inf (neg : Bool) : FP
  | fin (q : ℚ) : FP
deriving DecidableEq, Repr

instance {ε α : Type} [DecidableEq ε] [DecidableEq α] :
    DecidableEq (Except ε α) := fun a b =>
  match a, b with
  | .ok x, .ok y => decidable_of_iff (x = y) (by simp)
  | .error e, .error f => decidable_of_iff (e = f) (by simp)
  | .ok _, .error _ => isFalse (by simp)
  | .error _, .ok _ => isFalse (by simp)

namespace FP

/-- Round an exact rational result into the value domain: round to nearest
(ties even), overflowing to the appropriately signed infinity exactly when
the rounded value reaches `2^1024` (the IEEE overflow rule). -/
def ofRat (x : ℚ) : FP :=
  let r := roundQ x
  if qleB r (qneg (pow2 1024)) then inf true
  else if qleB (pow2 1024) r then inf false
  else fin r

/-- Go float64 addition. -/
def add : FP → FP → FP
  | nan, _ => nan
  | _, nan => nan
  | inf s, inf t => if s = t then inf s else nan
  | inf s, fin _ => inf s
  | fin _, inf t => inf t
  | fin a, fin b => ofRat (qadd a b)

/-- Go float64 negation. -/
def neg : FP → FP
  | nan => nan
  | inf s => inf (!s)
  | fin a => fin (qneg a)

/-- Go float64 subtraction. -/
def sub (x y : FP) : FP := add x (neg y)

/-- Go float64 multiplication. -/
def mul : FP → FP → FP
  | nan, _ => nan
  | _, nan => nan
  | inf s, inf t => inf (s != t)
  | inf s, fin b => if b.num = 0 then nan else inf (s != decide (b.num < 0))
  | fin a, inf t => if a.num = 0 then nan else inf (t != decide (a.num < 0))
  | fin a, fin b => ofRat (qmul a b)

/-- Go float64 division. -/
def div : FP → FP → FP
  | nan, _ => nan
  | _, nan => nan
  | inf _, inf _ => nan
  | inf s, fin b => inf (s != decide (b.num < 0))
  | fin _, inf _ => fin 0
  | fin a, fin b =>
    if b.num = 0 then (if a.num = 0 then nan else inf (decide (a.num < 0)))
    else ofRat (qdiv a b)

/-- Go `math.Abs`. -/
def abs : FP → FP
  | nan => nan
  | inf _ => inf false
  | fin a => fin (qabs a)

/-- Go `<` on float64 (false when either side is NaN). -/
def blt : FP → FP → Bool
  | nan, _ => false
  | _, nan => false
  | inf s, inf t => s && !t
  | inf s, fin _ => s
  | fin _, inf t => !t
  | fin a, fin b => qltB a b

/-- Go `<=` on float64 (false when either side is NaN). -/
def ble : FP → FP → Bool
  | nan, _ => false
  | _, nan => false
  | inf s, inf t => s || !t
  | inf s, fin _ => s
  | fin _, inf t => !t
  | fin a, fin b => qleB a b

/-- Go `==` on float64 (false when either side is NaN). -/
def beq : FP → FP → Bool
  | nan, _ => false
  | _, nan => false
  | inf s, inf t => s == t
  | inf _, fin _ => false
  | fin _, inf _ => false
  | fin a, fin b => decide (a = b)

/-- Go `math.IsInf(x, 0)`: is `x` either infinity. -/
def isInf : FP → Bool
  | inf _ => true
  | _ => false

/-- Is `x` a finite value. -/
def isFinite : FP → Bool
  | fin _ => true
  | _ => false

/-- The rational value of a finite `FP` (0 for NaN/infinities). -/
def toRat : FP → ℚ
  | fin q => q
  | _ => 0

instance : OfNat FP n where ofNat := fin n

end FP

/-! ## Package constants (acc.go) -/

/-- `eps = Ldexp(1, -P)` with `P = 53`: relative rounding error unit. -/
def eps : FP := .fin (pow2 (-53))

/-- `invEps = Ldexp(1, P)`. -/
def invEps : FP := .fin (pow2 53)

/-- `u = Ldexp(1, -P-1)`: half error unit. -/
def u : FP := .fin (pow2 (-54))

/-- `eta = Ldexp(1, 2-EMax-P)`: smallest positive subnormal. -/
def eta : FP := .fin (pow2 (-1074))

/-- `minPos = Ldexp(1, 1-EMax)`: smallest positive normalized number. -/
def minPos : FP := .fin (pow2 (-1022))

/-- `nMax = 1<<26 - 2`: PrecSum maximum length of argument p. -/
def nMax : ℕ := 2 ^ 26 - 2

/-- `splitFactor = Ldexp(1, 27) + 1`. -/
def splitFactor : FP := .fin (qadd (pow2 27) 1)

/-! ## Error-free transformation primitives (acc.go) -/

/-- `FastTwoSum(a, b)`: Dekker error-free sum, 3 operations. -/
def FastTwoSum (a b : FP) : FP × FP :=
  let x := a.add b
  (x, (a.sub x).add b)

/-- `TwoSum(a, b)`: Knuth error-free sum, 6 operations. -/
def TwoSum (a b : FP) : FP × FP :=
  let x := a.add b
  let z := x.sub a
  (x, (a.sub (x.sub z)).add (b.sub z))

/-- `split(a)`: Veltkamp split into two 26-bit parts. -/
def split (a : FP) : FP × FP :=
  let c := splitFactor.mul a
  let x := c.sub (c.sub a)
  (x, a.sub x)

/-- `TwoProduct(a, b)`: error-free product. -/
def TwoProduct (a b : FP) : FP × FP :=
  let x := a.mul b
  let a12 := split a
  let b12 := split b
  (x, (a12.2.mul b12.2).sub
      (((x.sub (a12.1.mul b12.1)).sub (a12.2.mul b12.1)).sub (a12.1.mul b12.2)))

/-! ## Plain and 2-fold summation (sum.go, acc.go) -/

/-- `Sum(p)`: simple sequential sum. -/
def Sum (p : List FP) : FP := p.foldl FP.add 0

/-- `Sum2(p)`: sum as if in twice the precision. -/
def Sum2 : List FP → FP
  | [] => 0
  | x :: rest =>
    let f := rest.foldl (fun (se : FP × FP) xi =>
      let sy := TwoSum se.1 xi
      (sy.1, se.2.add sy.2)) (x, (0 : FP))
    f.1.add f.2

/-! ## vecSum / SumK / SumKVert (acc.go) -/

/-- `Dot2(x, y)`: dot product in twice the precision.  Returns `none` when
Go would panic with an index out of range (`y` shorter than `x`). -/
def Dot2 : List FP → List FP → Option FP
  | [], _ => some 0
  | x0 :: xr, y =>
    match y with
    | [] => none
    | y0 :: yr =>
      if xr.length ≤ yr.length then
        let ps := TwoProduct x0 y0
        let f := (xr.zip yr).foldl (fun (ps : FP × FP) xy =>
          let hr := TwoProduct xy.1 xy.2
          let pq := TwoSum ps.1 hr.1
          (pq.1, ps.2.add (pq.2.add hr.2))) ps
        some (f.1.add f.2)
      else none

/-- `Dot2Err(x, y)`: 2-fold dot product with a rigorous error bound.
Reads `x[0]` and `y[0]` unconditionally: `none` models the index-out-of-range
panic on empty or mismatched input. -/
def Dot2Err (x y : List FP) : Option (FP × FP) :=
  match x, y with
  | [], _ => none
  | _, [] => none
  | x0 :: xr, y0 :: yr =>
    if xr.length ≤ yr.length then
      let ps := TwoProduct x0 y0
      let f := (xr.zip yr).foldl (fun (pse : FP × FP × FP) xy =>
        let hr := TwoProduct xy.1 xy.2
        let pq := TwoSum pse.1 hr.1
        let t := pq.2.add hr.2
        (pq.1, pse.2.1.add t, pse.2.2.add t.abs)) (ps.1, ps.2, ps.2.abs)
      let dot := f.1.add f.2.1
      let n : FP := .ofRat (x.length : ℚ)
      let δ := (n.mul eps).div ((1 : FP).sub (((2 : FP).mul n).mul eps))
      let α := (eps.mul dot.abs).add ((δ.mul f.2.2).add (((3 : FP).mul eta).div eps))
      some (dot, α.div ((1 : FP).sub ((2 : FP).mul eps)))
    else none

/-! ## The extraction engine (acc.go) -/

/-- `extractScalar(σ, p)`: split `p` at the power of two `σ` into a high
part `q = σ + p - σ` and remainder `p - q`. -/
def extractScalar (σ p : FP) : FP × FP :=
  let q := (σ.add p).sub σ
  (q, p.sub q)

/-- The loop of `extractSlice` with the running `τ` accumulator. -/
def extractSliceGo (σ τ : FP) : List FP → FP × List FP
  | [] => (τ, [])
  | pi :: rest =>
    let qp := extractScalar σ pi
    let r := extractSliceGo σ (τ.add qp.1) rest
    (r.1, qp.2 :: r.2)

/-- `extractSlice(σ, p)`: extract the high part of every element in place,
returning the float64-accumulated sum `τ` of the high parts together with
the mutated slice. -/
def extractSlice (σ : FP) (p : List FP) : FP × List FP := extractSliceGo σ 0 p

/-- `nextPowerTwo(p)`: smallest power of 2 not less than `|p|`, computed in
4 floating point operations (`q := invEps * p; return Abs(q - p - q)`). -/
def nextPowerTwo (p : FP) : FP :=
  let q := invEps.mul p
  ((q.sub p).sub q).abs

/-- The max scan opening `transform3` and `PrecSum`:
`μ := Abs(p[0]); for _, x := range p[1:] { if a := Abs(x); x > μ { μ = a } }`.
Note the comparison is `x > μ`, not `a > μ`. -/
def muScan (p0 : FP) (rest : List FP) : FP :=
  rest.foldl (fun μ x => if FP.blt μ x then x.abs else μ) p0.abs

/-- `_ΦSum(Ms) = u * Ms * Ms`. -/
def phiSum (Ms : FP) : FP := (u.mul Ms).mul Ms

/-- `_ΦSign(Ms) = u * Ms`. -/
def phiSign (Ms : FP) : FP := u.mul Ms

/-- The iteration of `transform3` (`for t := ρ; ; { ... }`), with a fuel
parameter: `none` means the fuel was exhausted, `.inl` is a normal return
carrying `(τ1, τ2)` and the mutated slice, `.inr` is the `t == 0` recursive
restart carrying the mutated slice. -/
def t3loop (Φv ϕ : FP) : ℕ → FP → FP → List FP →
    Option (((FP × FP) × List FP) ⊕ List FP)
  | 0, _, _, _ => none
  | n + 1, σ, t, p =>
    let tp := extractSlice σ p
    let τ := tp.1
    let τ1 := t.add τ
    if ((Φv.mul σ).ble τ1.abs) || (σ.ble minPos) then
      some (.inl ((τ1, (t.sub τ1).add τ), tp.2))
    else if τ1.beq 0 then some (.inr tp.2)
    else t3loop Φv ϕ n (σ.mul ϕ) τ1 tp.2

/-- `transform3(p, ρ, Φ)` with a fuel parameter bounding loop iterations
and recursive restarts; `none` means the fuel was exhausted.  Returns
`(τ1, τ2)` and the mutated slice. -/
def transform3 (Φ : FP → FP) : ℕ → List FP → FP → Option ((FP × FP) × List FP)
  | 0, _, _ => none
  | n + 1, p, ρ =>
    match p with
    | [] => some ((0, 0), p)
    | p0 :: rest =>
      let μ := muScan p0 rest
      if μ.beq 0 then some ((0, 0), p)
      else
        let Ms := nextPowerTwo (.ofRat ((p.length + 2 : ℕ) : ℚ))
        let σ := Ms.mul (nextPowerTwo μ)
        if σ.isInf then some ((σ, σ), p)
        else
          match t3loop (Φ Ms) (Ms.mul u) (n + 1) σ ρ p with
          | none => none
          | some (.inl res) => some res
          | some (.inr pr) => transform3 Φ n pr 0

/-- `transform(p) = transform3(p, 0, _ΦSum)`. -/
def transform (fuel : ℕ) (p : List FP) : Option ((FP × FP) × List FP) :=
  transform3 phiSum fuel p 0

/-- `AccSum(p)`: transform, then a plain sum of the mutated slice, then
`sum + τ2 + τ1`. -/
def AccSum (fuel : ℕ) (p : List FP) : Option FP :=
  match transform fuel p with
  | none => none
  | some (ττ, pr) => some (((Sum pr).add ττ.2).add ττ.1)

/-! ## PrecSum (acc.go) -/

/-- Go `math.Log2`, modelled on the inputs this package gives it: every
argument is an exact power of two (`Ms`, `u`), where `Log2` returns the
exact integer exponent.  Other finite positive arguments (where Go returns
an approximation) do not occur in this package and are mapped to NaN. -/
def mathLog2 : FP → FP
  | .fin q => if 0 < q ∧ q = pow2 (ratLog2 q) then .fin ((ratLog2 q : ℚ)) else .nan
  | .inf false => .inf false
  | _ => .nan

/-- Go `math.Ceil` (exact: the ceiling of a finite binary64 value is
representable). -/
def mathCeil : FP → FP
  | .fin q => .fin (qceil q : ℚ)
  | x => x

/-- Go float64-to-int conversion: truncation toward zero.  Go `int` is
modelled as unbounded (conversions that overflow a 64-bit int are
unspecified in Go and do not occur in the verified statements). -/
def toInt : FP → ℤ
  | .fin q => if 0 ≤ q.num then qfloor q else qceil q
  | _ => 0

/-- The σ-fill loop of `PrecSum` (`for k := 0; ; { ... }`), given the
remaining capacity of the allocated slice.  The `.error` case models the
index-out-of-range panic `σ[k]` when the slice is full (reachable only for
`K ≤ 0`). -/
def fillSigma (ϕ : FP) : ℕ → FP → Except String (List FP)
  | cap, σ0 =>
    if σ0.ble minPos then .ok []
    else
      match cap with
      | 0 => .error "index out of range"
      | c + 1 =>
        if c = 0 then .ok [σ0]
        else (fillSigma ϕ c (σ0.mul ϕ)).map (σ0 :: ·)

/-- The inner loop of `PrecSum`'s main pass: run `π` down the extraction
levels, adding each high part into the matching `τ` accumulator. -/
def extractLevels : List FP → FP → List FP → List FP × FP
  | [], π, _ => ([], π)
  | _, π, [] => ([], π)
  | σk :: σr, π, τk :: τr =>
    let qp := extractScalar σk π
    let r := extractLevels σr qp.2 τr
    (τk.add qp.1 :: r.1, r.2)

/-- `PrecSum`'s main pass over `p`: returns the `τ` accumulators and the
plain sum of the remainders. -/
def precLoop (σs : List FP) (p : List FP) : List FP × FP :=
  p.foldl (fun acc π =>
    let r := extractLevels σs π acc.1
    (r.1, acc.2.add r.2)) (List.replicate σs.length 0, (0 : FP))

/-- The bottom of `PrecSum`: FastTwoSum the `τ` accumulators together and
return `sum + e + π`. -/
def precFinish (τs : List FP) (sum : FP) : FP :=
  match τs with
  | [] => 0
  | τ0 :: τr =>
    let pe := τr.foldl (fun (pe : FP × FP) τk =>
      let r := FastTwoSum pe.1 τk
      (r.1, pe.2.add r.2)) (τ0, (0 : FP))
    (sum.add pe.2).add pe.1

/-- `PrecSum(p, K)`: accurate sum with relative error `2^(-53K)·cond`.
`.error` models a Go panic; the only panic reachable for `K ≥ 1` is the
length check `len(p) > nMax` whose message reports both the length and the
limit. -/
def PrecSum (p : List FP) (K : ℤ) : Except String FP :=
  if p.length = 0 then .ok 0
  else if nMax < p.length then
    let n := p.length
    let m := nMax
    .error s!"len(p) = {n} exceeds limit, {m}"
  else
    match p with
    | [] => .ok 0
    | p0 :: rest =>
      let μ0 := muScan p0 rest
      let μ := μ0.div ((1 : FP).sub
        (((FP.ofRat (p.length : ℚ)).mul 2).mul eps))
      if μ.beq 0 then .ok 0
      else
        let σ0 := nextPowerTwo μ
        if σ0.isInf then .ok σ0
        else
          let Ms := nextPowerTwo (.ofRat ((p.length + 2 : ℕ) : ℚ))
          let M := mathLog2 Ms
          let ϕ := Ms.mul u
          let L := toInt ((mathCeil ((((FP.ofRat (K : ℚ)).mul
            (mathLog2 u)).sub 2).div ((mathLog2 u).add M))).sub 1)
          if L < 0 then .error "makeslice: len out of range"
          else
            match fillSigma ϕ L.toNat σ0 with
            | .error e => .error e
            | .ok σs =>
              if σs.length = 0 then .ok (Sum p)
              else
                let ts := precLoop σs p
                .ok (precFinish ts.1 ts.2)

/-! ## Condition numbers (sum.go): a heap of buffers for frame properties

`Cond`, `CondSum` and `CondDot` copy their arguments before calling the
caller-supplied reduction function.  To state that the caller's vectors are
never written — even by a destructive reduction function — slices are
modelled as addresses into a heap of buffers; a destructive function is
modelled by the contents it leaves in its argument buffer. -/

/-- A heap of float64 buffers; addresses are indices into the list. -/
abbrev Heap := List (List FP)

/-- Contents at address `a` (empty for dangling addresses). -/
def Heap.read (h : Heap) (a : ℕ) : List FP := h.getD a []

/-- Overwrite the buffer at address `a`. -/
def Heap.write (h : Heap) (a : ℕ) (v : List FP) : Heap := h.set a v

/-- Allocate a fresh buffer (`append([]float64{}, s...)` always copies into
newly allocated backing storage, since the empty literal has capacity 0). -/
def Heap.alloc (h : Heap) (v : List FP) : Heap × ℕ := (h ++ [v], h.length)

/-- The semantics of a caller-supplied Go reduction `func([]float64) float64`:
from the contents of its argument slice, the value it returns and the
contents it leaves behind (an arbitrary, possibly destructive, mutation). -/
def RFunc := (List FP → FP × List FP)

/-- Dot-product reduction `func(x, y []float64) float64`, mutating both. -/
def RFunc2 := (List FP → List FP → FP × List FP × List FP)

/-- `for i, x := range s { c[i] = math.Abs(x) }`: overwrite the front of
`c` with the magnitudes of `s`'s elements (`c` has the length of `s` at
every call site). -/
def overwriteAbs (s c : List FP) : List FP :=
  s.map FP.abs ++ c.drop s.length

/-- `for i := range x { c[i] = math.Abs(y[i]) }` for the `cy` update in
`CondDot` (indices range over `x`). -/
def overwriteAbsN (n : ℕ) (y c : List FP) : List FP :=
  (y.take n).map FP.abs ++ c.drop n

/-- `Cond(f, s)` from sum.go (first copy of the function): condition number
of a summation function over the buffer at address `s`, computed on a
private copy. -/
def Cond (f : RFunc) (h : Heap) (s : ℕ) : FP × Heap :=
  let hc := h.alloc (h.read s)
  let h1 := hc.1
  let c := hc.2
  let r1 := f (h1.read c)
  let h2 := h1.write c r1.2
  let absSum := r1.1.abs
  let h3 := h2.write c (overwriteAbs (h2.read s) (h2.read c))
  let r2 := f (h3.read c)
  let h4 := h3.write c r2.2
  (r2.1.div absSum, h4)

/-- `CondSum(f, s)` (sum.go carries a second, identical copy of `Cond`
under this name). -/
def CondSum (f : RFunc) (h : Heap) (s : ℕ) : FP × Heap :=
  let hc := h.alloc (h.read s)
  let h1 := hc.1
  let c := hc.2
  let r1 := f (h1.read c)
  let h2 := h1.write c r1.2
  let absSum := r1.1.abs
  let h3 := h2.write c (overwriteAbs (h2.read s) (h2.read c))
  let r2 := f (h3.read c)
  let h4 := h3.write c r2.2
  (r2.1.div absSum, h4)

/-- `CondDot(f, x, y)`: condition number of a dot-product function over the
buffers at addresses `x` and `y`, computed on private copies `cx`, `cy`. -/
def CondDot (f : RFunc2) (h : Heap) (x y : ℕ) : FP × Heap :=
  let hx := h.alloc (h.read x)
  let h1 := hx.1
  let cx := hx.2
  let hy := h1.alloc (h1.read y)
  let h2 := hy.1
  let cy := hy.2
  let r1 := f (h2.read cx) (h2.read cy)
  let h3 := (h2.write cx r1.2.1).write cy r1.2.2
  let absDot := r1.1.abs
  let n := (h3.read x).length
  let h4 := (h3.write cx (overwriteAbs (h3.read x) (h3.read cx))).write cy
    (overwriteAbsN n (h3.read y) (h3.read cy))
  let r2 := f (h4.read cx) (h4.read cy)
  let h5 := (h4.write cx r2.2.1).write cy r2.2.2
  (((2 : FP).mul r2.1).div absDot, h5)

/-! ## Derived notions used in claim statements -/

/-- The exact (infinite-precision) rational sum of a list of finite
values. -/
def exactSum (p : List FP) : ℚ := (p.map FP.toRat).sum

/-- The exact maximum of `|p[i]|` over all elements (what the spec says the
`μ` scan computes). -/
def maxAbs (p : List FP) : ℚ := p.foldl (fun a x => max a |x.toRat|) 0

/-- Spec glossary, faithful rounding: "a result that is either the
correctly-rounded-to-nearest value or one of its immediate floating-point
neighbors".  `r` is faithful for the exact value `s` when `r` is
representable and is the round-to-nearest value of `s`, the greatest
representable below it, or the least representable above it. -/
def Faithful (s r : ℚ) : Prop :=
  Rep r ∧
    (r = roundQ s ∨
      (r < roundQ s ∧ ∀ y, Rep y → y < roundQ s → y ≤ r) ∨
      (roundQ s < r ∧ ∀ y, Rep y → roundQ s < y → r ≤ y))

/-! # Theorems

First, basic absorption facts about the value domain. -/

theorem FP.add_nan : ∀ x : FP, x.add .nan = .nan := by
  rintro (_ | _ | _) <;> rfl

theorem FP.nan_mul : ∀ x : FP, FP.nan.mul x = .nan := by
  rintro (_ | _ | _) <;> rfl

theorem FP.mul_nan : ∀ x : FP, x.mul .nan = .nan := by
  rintro (_ | _ | _) <;> rfl

theorem FP.ble_nan : ∀ x : FP, x.ble .nan = false := by
  rintro (_ | _ | _) <;> rfl

theorem FP.sub_nan : ∀ x : FP, x.sub .nan = .nan := by
  rintro (_ | _ | _) <;> rfl

theorem extractScalar_nan : ∀ x : FP, extractScalar .nan x = (.nan, .nan) := by
  rintro (_ | _ | _) <;> rfl

/-- Under a NaN extraction unit, the accumulated `τ` of `extractSlice` is
NaN (for a nonempty slice) and the slice stays nonempty. -/
theorem extractSliceGo_nan :
    ∀ (p : List FP) (τ : FP), p ≠ [] →
      (extractSliceGo .nan τ p).1 = .nan ∧ (extractSliceGo .nan τ p).2 ≠ [] := by
  intro p
  induction p with
  | nil => intro τ h; exact absurd rfl h
  | cons pi rest ih =>
    intro τ _
    cases rest with
    | nil => simp [extractSliceGo, extractScalar_nan, FP.add_nan]
    | cons r rs =>
      have h2 := ih .nan (by simp)
      have hstep : extractSliceGo .nan τ (pi :: r :: rs)
          = ((extractSliceGo .nan (τ.add (extractScalar .nan pi).1) (r :: rs)).1,
             (extractScalar .nan pi).2 ::
               (extractSliceGo .nan (τ.add (extractScalar .nan pi).1) (r :: rs)).2) := rfl
      rw [hstep, extractScalar_nan, FP.add_nan]
      exact ⟨h2.1, by simp⟩

/-- Once the extraction unit `σ` is NaN, no exit condition of
`transform3`'s loop can ever hold (every comparison with NaN is false), so
the loop runs forever: it exhausts any amount of fuel. -/
theorem t3loop_nan (Φv ϕ : FP) :
    ∀ (n : ℕ) (t : FP) (p : List FP), p ≠ [] →
      t3loop Φv ϕ n .nan t p = none := by
  intro n
  induction n with
  | zero => intro t p _; rfl
  | succ n ih =>
    intro t p hp
    have hτ := extractSliceGo_nan p 0 hp
    show t3loop Φv ϕ (n + 1) .nan t p = none
    rw [t3loop]
    rw [show extractSlice .nan p = ((extractSlice .nan p).1, (extractSlice .nan p).2)
      from rfl]
    rw [show (extractSlice .nan p).1 = .nan from hτ.1]
    rw [FP.add_nan, FP.mul_nan]
    show (if (FP.ble .nan (FP.abs .nan) || FP.ble .nan minPos) = true then _
      else if (FP.beq .nan 0) = true then _ else _) = none
    rw [show (FP.ble .nan (FP.abs .nan) || FP.ble .nan minPos) = false from rfl]
    rw [show FP.beq .nan 0 = false from rfl]
    show t3loop Φv ϕ n (FP.mul .nan ϕ) .nan (extractSlice .nan p).2 = none
    rw [FP.nan_mul]
    exact ih .nan _ hτ.2

theorem FP.toRat_fin (q : ℚ) : (FP.fin q).toRat = q := rfl

/-! ## Claim C10 -/

/-- **C10** (confirmed): at the public interface, `Dot2(x, y)` returns
exactly `0` whenever `len(x) == 0`, for any `y`; `Dot2Err` unconditionally
reads `x[0]` and `y[0]` before any length check and panics with an
index-out-of-range fault on empty input (`none` in the embedding), even
when `len(x) == len(y) == 0`. -/
theorem dot2_empty_ok_dot2err_panics :
    ∀ y : List FP, Dot2 [] y = some (.fin 0) ∧ Dot2Err [] y = none := by
  intro y
  exact ⟨rfl, by cases y <;> rfl⟩

/-! ## Claim C2 -/

/-- **C2** (code bug): the scan opening `transform3` and `PrecSum` updates
`μ` only when `x > μ` — the magnitude `a := math.Abs(x)` is assigned but
compared as the signed `x` — so a negative element of maximal magnitude is
missed.  On `p = [1, -2]` the scan yields `μ = 1`, but the maximum of
`|p[i]|` required by the spec is `2`. -/
theorem muScan_misses_negative_max :
    muScan (.fin 1) [.fin (-2)] = .fin 1 ∧
      maxAbs [.fin 1, .fin (-2)] = 2 ∧ (1 : ℚ) ≠ 2 := by
  refine ⟨by decide, ?_, by norm_num⟩
  simp [maxAbs, FP.toRat_fin]

/-! ## Claim C1 -/

/-- **C1** (code bug): because the μ-scan misses negative maxima (see C2),
`AccSum` on `p = [1, -(2^54+8), 1, 1, 1, 1, 1, 1, 1, 1]` derives the
extraction unit from `μ = 1` instead of `2^54 + 8`; the floating-point
accumulation of the high parts then swallows all nine `1`s, and the result
`-(2^54+8)` is not a faithful rounding of the exact sum `-(2^54-1)`: the
correctly rounded value is `-2^54`, whose immediate neighbors are
`-(2^54+4)` and `-(2^54-2)`. -/
theorem accSum_not_faithful :
    AccSum 10 (.fin 1 :: .fin (-(2 ^ 54 + 8)) :: List.replicate 8 (.fin 1))
        = some (.fin (-(2 ^ 54 + 8))) ∧
      exactSum (.fin 1 :: .fin (-(2 ^ 54 + 8)) :: List.replicate 8 (.fin 1))
        = -(2 ^ 54 - 1) ∧
      ¬ Faithful (-(2 ^ 54 - 1)) (-(2 ^ 54 + 8)) := by
  have hl1 : (-(2 ^ 54 + 8) : ℚ) = -18014398509481992 := by norm_num
  have hl2 : (-(2 ^ 54 - 1) : ℚ) = -18014398509481983 := by norm_num
  refine ⟨?_, ?_, ?_⟩
  · rw [hl1]
    decide
  · rw [hl1]
    simp [exactSum, FP.toRat_fin, List.replicate]
    norm_num
  · rw [hl1, hl2]
    have hr : roundQ (-18014398509481983) = -18014398509481984 := by decide
    rintro ⟨-, h | ⟨-, h⟩ | ⟨h, -⟩⟩
    · rw [hr] at h
      norm_num at h
    · have := h (-18014398509481988) (by decide) (by rw [hr]; norm_num)
      norm_num at this
    · rw [hr] at h
      norm_num at h

/-! ## Claim C7 -/

/-- **C7** (code bug): on `p = [2^971]` (one huge but perfectly finite
element), `nextPowerTwo` computes `inf - inf = NaN` internally, the
`IsInf(σ)` guard of `transform3` does not fire, and the extraction loop
never terminates — every exit comparison is false on NaN — for any amount
of fuel.  `PrecSum` on the same input terminates but returns NaN after a
full extraction pass instead of the claimed signed-infinite decomposition. -/
theorem sigma_overflow_not_detected :
    (∀ fuel, transform3 phiSum fuel [.fin (pow2 971)] 0 = none) ∧
      PrecSum [.fin (pow2 971)] 2 = .ok .nan := by
  constructor
  · intro fuel
    cases fuel with
    | zero => rfl
    | succ n =>
      have hμ : (muScan (.fin (pow2 971)) []).beq 0 = false := by decide
      have hσ : (nextPowerTwo
            (FP.ofRat ((([FP.fin (pow2 971)] : List FP).length + 2 : ℕ) : ℚ))).mul
          (nextPowerTwo (muScan (.fin (pow2 971)) [])) = .nan := by decide
      rw [transform3]
      simp only [hμ, hσ, Bool.false_eq_true, if_false, FP.isInf]
      rw [t3loop_nan _ _ _ _ _ (by simp)]
  · decide

/-! ## Claim C8 -/

theorem Heap.read_write_ne (h : Heap) (a s : ℕ) (v : List FP) (hne : s ≠ a) :
    (h.write a v).read s = h.read s := by
  simp [Heap.read, Heap.write, List.getD, List.getElem?_set_ne (Ne.symm hne)]

theorem Heap.read_append (h : Heap) (s : ℕ) (v : List FP) (hs : s < h.length) :
    Heap.read (h ++ [v]) s = h.read s := by
  simp [Heap.read, List.getD, List.getElem?_append_left hs]

/-- **C8** (confirmed): `Cond`, `CondSum` and `CondDot` operate on freshly
allocated private copies of the caller's vectors; whatever the reduction
function does to its argument buffers — modelled as an arbitrary mutation
of their contents — the caller's buffers are unchanged on return. -/
theorem cond_never_mutates_inputs (f : RFunc) (g : RFunc2) (h : Heap)
    (s x y : ℕ) (hs : s < h.length) (hx : x < h.length) (hy : y < h.length) :
    (Cond f h s).2.read s = h.read s ∧
      (CondSum f h s).2.read s = h.read s ∧
      (CondDot g h x y).2.read x = h.read x ∧
      (CondDot g h x y).2.read y = h.read y := by
  refine ⟨?_, ?_, ?_, ?_⟩
  · simp only [Cond, Heap.alloc]
    rw [Heap.read_write_ne _ _ _ _ (by omega), Heap.read_write_ne _ _ _ _ (by omega),
      Heap.read_write_ne _ _ _ _ (by omega), Heap.read_append _ _ _ hs]
  · simp only [CondSum, Heap.alloc]
    rw [Heap.read_write_ne _ _ _ _ (by omega), Heap.read_write_ne _ _ _ _ (by omega),
      Heap.read_write_ne _ _ _ _ (by omega), Heap.read_append _ _ _ hs]
  · simp only [CondDot, Heap.alloc, List.length_append, List.length_singleton]
    rw [Heap.read_write_ne _ _ _ _ (by omega), Heap.read_write_ne _ _ _ _ (by omega),
      Heap.read_write_ne _ _ _ _ (by omega), Heap.read_write_ne _ _ _ _ (by omega),
      Heap.read_write_ne _ _ _ _ (by omega), Heap.read_write_ne _ _ _ _ (by omega),
      Heap.read_append _ _ _ (by simp; omega), Heap.read_append _ _ _ hx]
  · simp only [CondDot, Heap.alloc, List.length_append, List.length_singleton]
    rw [Heap.read_write_ne _ _ _ _ (by omega), Heap.read_write_ne _ _ _ _ (by omega),
      Heap.read_write_ne _ _ _ _ (by omega), Heap.read_write_ne _ _ _ _ (by omega),
      Heap.read_write_ne _ _ _ _ (by omega), Heap.read_write_ne _ _ _ _ (by omega),
      Heap.read_append _ _ _ (by simp; omega), Heap.read_append _ _ _ hy]

/-- Witness for C8 at a concrete heap, reduction functions and addresses. -/
theorem cond_never_mutates_inputs_witness :
    (0 < ([[(.fin 1 : FP)]] : Heap).length) ∧
      ((Cond (fun _ => (.fin 0, [])) [[(.fin 1 : FP)]] 0).2.read 0
          = Heap.read [[(.fin 1 : FP)]] 0 ∧
        (CondSum (fun _ => (.fin 0, [])) [[(.fin 1 : FP)]] 0).2.read 0
          = Heap.read [[(.fin 1 : FP)]] 0 ∧
        (CondDot (fun _ _ => (.fin 0, [], [])) [[(.fin 1 : FP)]] 0 0).2.read 0
          = Heap.read [[(.fin 1 : FP)]] 0 ∧
        (CondDot (fun _ _ => (.fin 0, [], [])) [[(.fin 1 : FP)]] 0 0).2.read 0
          = Heap.read [[(.fin 1 : FP)]] 0) :=
  ⟨by decide, cond_never_mutates_inputs (fun _ => (.fin 0, []))
    (fun _ _ => (.fin 0, [], [])) [[(.fin 1 : FP)]] 0 0 0
    (by decide) (by decide) (by decide)⟩

/-! ## Claim C5

`SumK` folds `vecSum` over the whole vector `K-1` times (horizontal
passes, mutating `p`); `SumKVert` pushes each element through a `K-1`-stage
cascade of compensated adders (one vertical pass over a private queue `q`).
The bridge is a loop-interchange argument: one `vecSum` pass is the
`sweep` transducer, `k` passes equal a `k`-stage `pipe` followed by
draining the stage states, and feeding a prefix of `p` into the cascade
builds exactly the pipeline state.  The equivalence holds for
`2 ≤ K ≤ len(p)`; at `K = 1` `SumKVert` panics on `q[:K-2]` = `q[:-1]`
while `SumK` returns the plain sum. -/

theorem qadd_eq (a b : ℚ) : qadd a b = a + b := by
  have ha : (a.den : ℚ) ≠ 0 := by exact_mod_cast a.den_ne_zero
  have hb : (b.den : ℚ) ≠ 0 := by exact_mod_cast b.den_ne_zero
  conv_rhs => rw [← Rat.num_div_den a, ← Rat.num_div_den b]
  rw [qadd, Rat.mkRat_eq_div]
  push_cast
  field_simp

theorem qneg_eq (a : ℚ) : qneg a = -a := by
  rw [qneg, Rat.mkRat_eq_div]
  push_cast
  rw [neg_div, Rat.num_div_den]

theorem qsub_eq (a b : ℚ) : qsub a b = a - b := by
  rw [qsub, qadd_eq, qneg_eq, sub_eq_add_neg]

theorem qmul_eq (a b : ℚ) : qmul a b = a * b := by
  conv_rhs => rw [← Rat.num_div_den a, ← Rat.num_div_den b]
  rw [qmul, Rat.mkRat_eq_div]
  push_cast
  rw [div_mul_div_comm]

theorem qabs_eq (a : ℚ) : qabs a = |a| := by
  rw [qabs]
  split_ifs with h
  · rw [qneg_eq, abs_of_neg (Rat.num_neg.mp h)]
  · rw [abs_of_nonneg (not_lt.mp (fun hq => h (Rat.num_neg.mpr hq)))]

theorem qleB_iff (a b : ℚ) : qleB a b = true ↔ a ≤ b := by
  rw [qleB, decide_eq_true_iff, Rat.le_def]

theorem qltB_iff (a b : ℚ) : qltB a b = true ↔ a < b := by
  rw [qltB, decide_eq_true_iff, Rat.lt_def]

theorem qfloor_eq (a : ℚ) : qfloor a = ⌊a⌋ := by
  rw [qfloor, Rat.floor_def, Int.fdiv_eq_ediv _ (by positivity)]

theorem pow2Nat_eq : ∀ (f n : ℕ), n ≤ f → pow2Nat f n = 2 ^ n := by
  intro f
  induction f with
  | zero =>
    intro n hn
    interval_cases n
    rfl
  | succ f ih =>
    intro n hn
    rw [pow2Nat]
    by_cases h0 : n = 0
    · simp [h0]
    · simp only [h0, if_false]
      show (if n % 2 = 0 then pow2Nat f (n / 2) * pow2Nat f (n / 2)
        else pow2Nat f (n / 2) * pow2Nat f (n / 2) * 2) = 2 ^ n
      rw [ih (n / 2) (by omega)]
      rcases Nat.even_or_odd n with he | ho
      · have hpar : n % 2 = 0 := Nat.even_iff.mp he
        rw [if_pos hpar, ← Nat.pow_add]
        congr 1
        omega
      · have hpar : n % 2 = 1 := Nat.odd_iff.mp ho
        rw [if_neg (by omega), ← Nat.pow_add, ← Nat.pow_succ]
        congr 1
        omega

theorem pow2_eq (e : ℤ) : pow2 e = (2 : ℚ) ^ e := by
  cases e with
  | ofNat n =>
    rw [pow2, pow2Nat_eq n n le_rfl]
    push_cast
    exact (zpow_natCast (2 : ℚ) n).symm
  | negSucc n =>
    rw [pow2, pow2Nat_eq _ _ le_rfl, Rat.mkRat_eq_div, zpow_negSucc]
    push_cast
    rw [one_div]

theorem pow2_pos (e : ℤ) : 0 < pow2 e := by
  rw [pow2_eq]
  positivity

theorem bitsGo_spec : ∀ (f n : ℕ), 0 < n → n < 16 ^ f →
    2 ^ (bitsGo f n - 1) ≤ n ∧ n < 2 ^ bitsGo f n := by
  intro f
  induction f with
  | zero => intro n h1 h2; omega
  | succ f ih =>
    intro n h1 h2
    rw [bitsGo]
    by_cases hs : n < 16
    · simp only [if_pos hs]
      interval_cases n <;> simp
    · simp only [if_neg hs]
      have hd1 : 0 < n / 16 := by omega
      have hd2 : n / 16 < 16 ^ f := by
        rw [Nat.div_lt_iff_lt_mul (by norm_num)]
        calc n < 16 ^ (f + 1) := h2
          _ = 16 ^ f * 16 := by rw [pow_succ]
      obtain ⟨ihl, ihr⟩ := ih (n / 16) hd1 hd2
      set k := bitsGo f (n / 16) with hkdef
      have hk1 : 1 ≤ k := by
        by_contra hk
        have hz : k = 0 := by omega
        rw [hz] at ihr
        omega
      constructor
      · have he : k + 4 - 1 = (k - 1) + 4 := by omega
        rw [he, Nat.pow_add]
        calc 2 ^ (k - 1) * 2 ^ 4 = 2 ^ (k - 1) * 16 := by norm_num
          _ ≤ n / 16 * 16 := Nat.mul_le_mul_right 16 ihl
          _ ≤ n := by omega
      · rw [Nat.pow_add]
        calc n < (n / 16 + 1) * 16 := by omega
          _ ≤ 2 ^ k * 16 := Nat.mul_le_mul_right 16 (by omega)
          _ = 2 ^ k * 2 ^ 4 := by norm_num

theorem bitsBig_spec : ∀ (f n : ℕ), 0 < n → n < (2 ^ 64) ^ f →
    2 ^ (bitsBig f n - 1) ≤ n ∧ n < 2 ^ bitsBig f n := by
  intro f
  induction f with
  | zero => intro n h1 h2; omega
  | succ f ih =>
    intro n h1 h2
    rw [bitsBig]
    by_cases hs : n < 18446744073709551616
    · simp only [if_pos hs]
      refine bitsGo_spec 16 n h1 ?_
      calc n < 18446744073709551616 := hs
        _ = 16 ^ 16 := by norm_num
    · simp only [if_neg hs]
      have hd1 : 0 < n / 18446744073709551616 := by omega
      have hd2 : n / 18446744073709551616 < (2 ^ 64) ^ f := by
        rw [Nat.div_lt_iff_lt_mul (by norm_num)]
        calc n < (2 ^ 64) ^ (f + 1) := h2
          _ = (2 ^ 64) ^ f * 18446744073709551616 := by
            rw [pow_succ]
            norm_num
      obtain ⟨ihl, ihr⟩ := ih _ hd1 hd2
      set k := bitsBig f (n / 18446744073709551616) with hkdef
      have hk1 : 1 ≤ k := by
        by_contra hk
        have hz : k = 0 := by omega
        rw [hz] at ihr
        omega
      constructor
      · have he : k + 64 - 1 = (k - 1) + 64 := by omega
        rw [he, Nat.pow_add]
        calc 2 ^ (k - 1) * 2 ^ 64
            = 2 ^ (k - 1) * 18446744073709551616 := by norm_num
          _ ≤ n / 18446744073709551616 * 18446744073709551616 :=
            Nat.mul_le_mul_right _ ihl
          _ ≤ n := by omega
      · rw [Nat.pow_add]
        have hlt : n < (n / 18446744073709551616 + 1) * 18446744073709551616 := by
          omega
        calc n < (n / 18446744073709551616 + 1) * 18446744073709551616 := hlt
          _ ≤ 2 ^ k * 18446744073709551616 := Nat.mul_le_mul_right _ (by omega)
          _ = 2 ^ k * 2 ^ 64 := by norm_num

theorem bits_spec (n : ℕ) (h : 0 < n) :
    2 ^ (bits n - 1) ≤ n ∧ n < 2 ^ bits n := by
  rw [bits]
  refine bitsBig_spec n n h ?_
  calc n < 2 ^ n := Nat.lt_two_pow n
    _ ≤ (2 ^ 64) ^ n := by
      rw [← pow_mul]
      exact Nat.pow_le_pow_right (by norm_num) (by omega)


/-! ### `ratLog2`: the binade of a positive rational -/

theorem ratLog2_spec (q : ℚ) (hq : 0 < q) :
    pow2 (ratLog2 q) ≤ q ∧ q < pow2 (ratLog2 q + 1) := by
  have hnum : 0 < q.num := Rat.num_pos.mpr hq
  have hden : 0 < q.den := q.den_pos
  obtain ⟨hn1, hn2⟩ := bits_spec q.num.toNat (by omega)
  obtain ⟨hd1, hd2⟩ := bits_spec q.den hden
  set bn := bits q.num.toNat with hbn
  set bd := bits q.den with hbd
  have hbn1 : 1 ≤ bn := by
    by_contra h
    have : bn = 0 := by omega
    rw [this] at hn2
    omega
  have hbd1 : 1 ≤ bd := by
    by_contra h
    have : bd = 0 := by omega
    rw [this] at hd2
    omega
  -- numerator and denominator bounds over ℚ
  have hcastn : ((q.num.toNat : ℕ) : ℚ) = (q.num : ℚ) := by
    exact_mod_cast congrArg (fun z : ℤ => (z : ℚ)) (Int.toNat_of_nonneg hnum.le)
  have hb1 : (2 : ℚ) ^ (bn - 1) ≤ (q.num : ℚ) := by
    rw [← hcastn]
    exact_mod_cast hn1
  have hb2 : (q.num : ℚ) < (2 : ℚ) ^ bn := by
    rw [← hcastn]
    exact_mod_cast hn2
  have hb3 : (2 : ℚ) ^ (bd - 1) ≤ (q.den : ℚ) := by exact_mod_cast hd1
  have hb4 : (q.den : ℚ) < (2 : ℚ) ^ bd := by exact_mod_cast hd2
  have hdenq : (0 : ℚ) < q.den := by exact_mod_cast hden
  have hnumq : (0 : ℚ) < q.num := by exact_mod_cast hnum
  have hqeq : q = (q.num : ℚ) / (q.den : ℚ) := (Rat.num_div_den q).symm
  -- the window 2^(e-1) < q < 2^(e+1) for e = bn - bd
  have w1 : (2 : ℚ) ^ ((bn : ℤ) - bd - 1) < q := by
    have he : (bn : ℤ) - bd - 1 = ((bn - 1 : ℕ) : ℤ) - ((bd : ℕ) : ℤ) := by
      omega
    rw [he, zpow_sub₀ (two_ne_zero), zpow_natCast, zpow_natCast, hqeq,
      div_lt_div_iff (by positivity) hdenq]
    calc (2 : ℚ) ^ (bn - 1) * q.den < 2 ^ (bn - 1) * 2 ^ bd := by
          exact mul_lt_mul_of_pos_left hb4 (by positivity)
      _ ≤ (q.num : ℚ) * 2 ^ bd := by
          exact mul_le_mul_of_nonneg_right hb1 (by positivity)
  have w2 : q < (2 : ℚ) ^ ((bn : ℤ) - bd + 1) := by
    have he : (bn : ℤ) - bd + 1 = ((bn : ℕ) : ℤ) - ((bd - 1 : ℕ) : ℤ) := by
      omega
    rw [he, zpow_sub₀ (two_ne_zero), zpow_natCast, zpow_natCast, hqeq,
      div_lt_div_iff hdenq (by positivity)]
    calc (q.num : ℚ) * 2 ^ (bd - 1) < 2 ^ bn * 2 ^ (bd - 1) := by
          exact mul_lt_mul_of_pos_right hb2 (by positivity)
      _ ≤ (2 : ℚ) ^ bn * q.den := by
          exact mul_le_mul_of_nonneg_left hb3 (by positivity)
  -- unfold ratLog2
  have hguard : ¬ (qleB q 0 = true) := by
    rw [qleB_iff]
    exact not_le.mpr hq
  rw [ratLog2, if_neg hguard]
  simp only []
  rw [← hbn, ← hbd]
  by_cases hcase : qleB (pow2 ((bn : ℤ) - bd)) q = true
  · rw [if_pos hcase]
    refine ⟨(qleB_iff _ _).mp hcase, ?_⟩
    rw [pow2_eq]
    exact w2
  · rw [if_neg hcase]
    constructor
    · rw [pow2_eq]
      exact w1.le
    · have hlt : q < pow2 ((bn : ℤ) - bd) :=
        lt_of_not_le (fun hle => hcase ((qleB_iff _ _).mpr hle))
      rw [show (bn : ℤ) - bd - 1 + 1 = (bn : ℤ) - bd by ring]
      exact hlt


theorem ratLog2_unique (q : ℚ) (e : ℤ) (hq : 0 < q)
    (h1 : pow2 e ≤ q) (h2 : q < pow2 (e + 1)) : ratLog2 q = e := by
  obtain ⟨s1, s2⟩ := ratLog2_spec q hq
  rw [pow2_eq] at h1 h2 s1 s2
  by_contra hne
  rcases lt_or_gt_of_ne hne with hlt | hgt
  · have : (2 : ℚ) ^ (ratLog2 q + 1) ≤ 2 ^ e :=
      zpow_le_zpow_right₀ one_le_two (by omega)
    exact absurd (lt_of_lt_of_le s2 (le_trans this h1)) (lt_irrefl q)
  · have : (2 : ℚ) ^ (e + 1) ≤ 2 ^ ratLog2 q :=
      zpow_le_zpow_right₀ one_le_two (by omega)
    exact absurd (lt_of_lt_of_le h2 (le_trans this s1)) (lt_irrefl q)

theorem ratLog2_pow2 (k : ℤ) : ratLog2 (pow2 k) = k :=
  ratLog2_unique _ k (pow2_pos k) le_rfl
    (by rw [pow2_eq, pow2_eq]; exact zpow_lt_zpow_right₀ one_lt_two (by omega))

theorem ratLog2_mono (a b : ℚ) (ha : 0 < a) (hab : a ≤ b) :
    ratLog2 a ≤ ratLog2 b := by
  obtain ⟨s1, _⟩ := ratLog2_spec a ha
  obtain ⟨_, s4⟩ := ratLog2_spec b (lt_of_lt_of_le ha hab)
  rw [pow2_eq] at s1 s4
  have : (2 : ℚ) ^ ratLog2 a < 2 ^ (ratLog2 b + 1) :=
    lt_of_le_of_lt (le_trans s1 hab) s4
  have := (zpow_lt_zpow_iff_right₀ one_lt_two).mp this
  omega

/-! ### `cexp` and representability -/

theorem cexp_mono (a b : ℚ) (ha : a ≠ 0) (hab : |a| ≤ |b|) :
    cexp a ≤ cexp b := by
  rw [cexp, cexp, qabs_eq, qabs_eq]
  have h1 : 0 < |a| := abs_pos.mpr ha
  have := ratLog2_mono _ _ h1 hab
  omega

theorem cexp_ge (a : ℚ) : -1074 ≤ cexp a := by
  rw [cexp]
  omega

theorem cexp_pow2 (k : ℤ) : cexp (pow2 k) = max (k - 52) (-1074) := by
  rw [cexp, qabs_eq, abs_of_pos (pow2_pos k), ratLog2_pow2]

theorem Rep_iff (x : ℚ) : Rep x ↔ ∃ m : ℤ, x = m * pow2 (cexp x) := by
  rw [Rep, qmul_eq]
  constructor
  · intro h
    refine ⟨(x * pow2 (-cexp x)).num, ?_⟩
    have := Rat.den_eq_one_iff (x * pow2 (-cexp x))
    rw [this.mp h]  
    rw [pow2_eq, pow2_eq]
    rw [mul_assoc, ← zpow_add₀ (two_ne_zero : (2:ℚ) ≠ 0)]
    simp
  · rintro ⟨m, hm⟩
    set c := cexp x with hc
    rw [hm, mul_assoc, pow2_eq, pow2_eq, ← zpow_add₀ (two_ne_zero : (2:ℚ) ≠ 0)]
    simp

theorem Rep_intro (x : ℚ) (m e : ℤ) (hx : x = m * pow2 e) (he : cexp x ≤ e) :
    Rep x := by
  rw [Rep_iff]
  refine ⟨m * 2 ^ (e - cexp x).toNat, ?_⟩
  set c := cexp x with hc
  rw [hx, pow2_eq, pow2_eq]
  push_cast
  rw [mul_assoc, ← zpow_natCast (2 : ℚ) (e - c).toNat,
    ← zpow_add₀ (two_ne_zero : (2:ℚ) ≠ 0)]
  congr 2
  omega

theorem Rep_zero : Rep 0 := by decide

theorem Rep_pow2 (k : ℤ) (hk : -1074 ≤ k) : Rep (pow2 k) := by
  refine Rep_intro _ 1 k (by norm_num) ?_
  rw [cexp, qabs_eq, abs_of_pos (pow2_pos k), ratLog2_pow2]
  omega

theorem Rep_neg (x : ℚ) (hx : Rep x) : Rep (-x) := by
  rcases eq_or_ne x 0 with h0 | h0
  · rw [h0, neg_zero]
    exact Rep_zero
  obtain ⟨m, hm⟩ := (Rep_iff x).mp hx
  have hcs : cexp (-x) = cexp x := by
    rw [cexp, cexp, qabs_eq, qabs_eq, abs_neg]
  refine Rep_intro _ (-m) (cexp x) ?_ (le_of_eq hcs)
  nth_rewrite 1 [hm]
  push_cast
  ring

theorem cexp_le_of_abs_lt (x : ℚ) (k : ℤ) (h0 : x ≠ 0)
    (h : |x| < pow2 k) : cexp x ≤ max (k - 53) (-1074) := by
  · rw [cexp, qabs_eq]
    have hpos : 0 < |x| := abs_pos.mpr h0
    obtain ⟨s1, _⟩ := ratLog2_spec |x| hpos
    have : pow2 (ratLog2 |x|) < pow2 k := lt_of_le_of_lt s1 h
    rw [pow2_eq, pow2_eq] at this
    have := (zpow_lt_zpow_iff_right₀ one_lt_two).mp this
    omega

theorem rnE_eq (x : ℚ) : rnE x =
    if x - ⌊x⌋ < 1 / 2 then ⌊x⌋
    else if 1 / 2 < x - ⌊x⌋ then ⌊x⌋ + 1
    else if ⌊x⌋ % 2 = 0 then ⌊x⌋ else ⌊x⌋ + 1 := by
  have hhalf : mkRat 1 2 = (1 / 2 : ℚ) := by
    rw [Rat.mkRat_eq_div]
    norm_num
  rw [rnE]
  simp only [qfloor_eq, qsub_eq, hhalf]
  by_cases h1 : x - ⌊x⌋ < 1 / 2
  · rw [if_pos ((qltB_iff _ _).mpr h1), if_pos h1]
  · rw [if_neg (fun hb => h1 ((qltB_iff _ _).mp hb)), if_neg h1]
    by_cases h2 : 1 / 2 < x - ⌊x⌋
    · rw [if_pos ((qltB_iff _ _).mpr h2), if_pos h2]
    · rw [if_neg (fun hb => h2 ((qltB_iff _ _).mp hb)), if_neg h2]

theorem rnE_intCast (m : ℤ) : rnE (m : ℚ) = m := by
  rw [rnE_eq, Int.floor_intCast]
  norm_num

theorem rnE_floor_or_ceil (x : ℚ) : rnE x = ⌊x⌋ ∨ rnE x = ⌊x⌋ + 1 := by
  rw [rnE_eq]
  split_ifs <;> simp

theorem roundQ_def (x : ℚ) :
    roundQ x = (rnE (x * pow2 (-cexp x)) : ℚ) * pow2 (cexp x) := by
  rw [roundQ, qmul_eq, qmul_eq]

theorem pow2_mul_pow2 (a b : ℤ) : pow2 a * pow2 b = pow2 (a + b) := by
  rw [pow2_eq, pow2_eq, pow2_eq, ← zpow_add₀ (two_ne_zero : (2:ℚ) ≠ 0)]

theorem pow2_zero : pow2 0 = 1 := rfl

theorem roundQ_eq_self (x : ℚ) (hx : Rep x) : roundQ x = x := by
  obtain ⟨m, hm⟩ := (Rep_iff x).mp hx
  set c := cexp x with hc
  rw [roundQ_def, ← hc, hm, mul_assoc, pow2_mul_pow2]
  rw [show c + -c = 0 by ring, pow2_zero, mul_one, rnE_intCast]

theorem cexp_neg (x : ℚ) : cexp (-x) = cexp x := by
  rw [cexp, cexp, qabs_eq, qabs_eq, abs_neg]

theorem pow2_53_eq : pow2 53 = ((2 : ℚ) ^ (53 : ℕ)) := by
  rw [pow2_eq]
  norm_num

theorem Rep_int (n : ℤ) (h : |n| ≤ 2 ^ 53) : Rep (n : ℚ) := by
  rcases eq_or_ne n 0 with h0 | h0
  · rw [h0]
    exact_mod_cast Rep_zero
  rcases eq_or_ne |n| (2 ^ 53) with he | hne
  · rcases abs_eq (by positivity : (0:ℤ) ≤ 2 ^ 53) |>.mp he with hp | hp
    · rw [hp]
      have : ((2 ^ 53 : ℤ) : ℚ) = pow2 53 := by
        rw [pow2_53_eq]
        push_cast
        norm_num
      rw [this]
      exact Rep_pow2 53 (by norm_num)
    · rw [hp]
      have : ((-(2 ^ 53) : ℤ) : ℚ) = -(pow2 53) := by
        rw [pow2_53_eq]
        push_cast
        norm_num
      rw [this]
      exact Rep_neg _ (Rep_pow2 53 (by norm_num))
  · have hlt : |n| < 2 ^ 53 := lt_of_le_of_ne h hne
    have hq0 : (n : ℚ) ≠ 0 := by exact_mod_cast h0
    have hqb : |(n : ℚ)| < pow2 53 := by
      rw [pow2_53_eq, ← Int.cast_abs]
      exact_mod_cast hlt
    have hce : cexp (n : ℚ) ≤ 0 := by
      have := cexp_le_of_abs_lt (n : ℚ) 53 hq0 hqb
      omega
    exact Rep_intro _ n 0 (by rw [pow2_zero, mul_one]) hce

theorem roundQ_int (n : ℤ) (h : |n| ≤ 2 ^ 53) : roundQ (n : ℚ) = n :=
  roundQ_eq_self _ (Rep_int n h)

theorem pow2_67_eq : pow2 67 = ((2 : ℚ) ^ (67 : ℕ)) := by
  rw [pow2_eq]
  norm_num

theorem pow2_70_eq : pow2 70 = ((2 : ℚ) ^ (70 : ℕ)) := by
  rw [pow2_eq]
  norm_num

theorem pow2_71_eq : pow2 71 = ((2 : ℚ) ^ (71 : ℕ)) := by
  rw [pow2_eq]
  norm_num

theorem pow2_63_eq : pow2 63 = ((2 : ℚ) ^ (63 : ℕ)) := by
  rw [pow2_eq]
  norm_num

theorem Rep_on_grid (x : ℚ) (hx : Rep x) (c : ℤ) (hc : c ≤ cexp x) :
    ∃ m : ℤ, x = (m : ℚ) * pow2 c := by
  obtain ⟨m, hm⟩ := (Rep_iff x).mp hx
  set cx := cexp x with hcx
  refine ⟨m * 2 ^ (cx - c).toNat, ?_⟩
  rw [hm]
  push_cast
  rw [mul_assoc, ← zpow_natCast (2 : ℚ) (cx - c).toNat, pow2_eq, pow2_eq,
    ← zpow_add₀ (two_ne_zero : (2:ℚ) ≠ 0)]
  congr 2
  omega

theorem Rep_grid_small (x : ℚ) (c : ℤ) (hc : -1074 ≤ c) (m : ℤ)
    (hx : x = (m : ℚ) * pow2 c) (hb : |x| < pow2 (c + 53)) : Rep x := by
  rcases eq_or_ne x 0 with h0 | h0
  · rw [h0]
    exact Rep_zero
  · have hce : cexp x ≤ c := by
      have := cexp_le_of_abs_lt x (c + 53) h0 hb
      omega
    exact Rep_intro x m c hx hce

theorem Rep_sub (a b : ℚ) (ha : Rep a) (hb : Rep b)
    (hbound : |a - b| < pow2 (min (cexp a) (cexp b) + 53)) : Rep (a - b) := by
  set c := min (cexp a) (cexp b) with hcdef
  obtain ⟨ma, hma⟩ := Rep_on_grid a ha c (by rw [hcdef]; exact min_le_left _ _)
  obtain ⟨mb, hmb⟩ := Rep_on_grid b hb c (by rw [hcdef]; exact min_le_right _ _)
  have key : a - b = ((ma - mb : ℤ) : ℚ) * pow2 c := by
    rw [hma, hmb]
    push_cast
    ring
  exact Rep_grid_small _ c
    (by rw [hcdef]; exact le_min (cexp_ge a) (cexp_ge b)) _ key hbound

theorem Rep_add (a b : ℚ) (ha : Rep a) (hb : Rep b)
    (hbound : |a + b| < pow2 (min (cexp a) (cexp b) + 53)) : Rep (a + b) := by
  have := Rep_sub a (-b) ha (Rep_neg b hb)
  rw [cexp_neg, sub_neg_eq_add] at this
  exact this hbound

end AccSum
